import Mathlib

/-!
Shallow embedding of the `filewatcher` Rust crate (src/lib.rs) and proofs of
the specification claims about it.

Rust strings (`String` / `&str`) are modelled as `List Char` (`RStr`); for
valid UTF-8 the byte-level operations used by the code (suffix test, first
character test, equality) coincide with the character-level ones.
Filesystem paths are modelled either as joined strings (`RStr`) or, where the
code iterates over `Path::components()`, as lists of normal components.
-/

/-- Rust `String` / `&str`, modelled as a list of characters. -/
abbrev RStr : Type := List Char

/-- `matches_extension(path, exts)` from src/lib.rs: `exts.iter().any(|ext|
path.ends_with(ext))` — a plain string-suffix test. -/
def matches_extension (path : RStr) (exts : List RStr) : Bool :=
  exts.any fun ext => ext.isSuffixOf path

/-- `is_ignored(path)` from src/lib.rs, expressed on the path's final
component (`file_name`): the name starts with `'.'` or equals `"vendor"` or
`"node_modules"`. -/
def is_ignored (name : RStr) : Bool :=
  name.head? == some '.' || name == "vendor".data || name == "node_modules".data

/-- `is_ignored_path(path)` from src/lib.rs: iterates over the path's normal
components and returns true as soon as one starts with `'.'` or equals
`"vendor"` or `"node_modules"`; the per-component test is the same as
`is_ignored` applied to the component. The path is modelled as the list of
its normal components. -/
def is_ignored_path (components : List RStr) : Bool :=
  components.any fun s =>
    s.head? == some '.' || s == "vendor".data || s == "node_modules".data

mutual
/-- A filesystem tree as seen by `scan_dir`: a file has a name and a
modification time; a directory has a name, a readability flag (`read_dir`
fails on unreadable directories, which the code skips with `continue`) and
its children. -/
inductive FsEntry where
  | file (name : RStr) (mtime : Nat)
  | dir (name : RStr) (readable : Bool) (entries : FsEntries)

/-- The children of a directory, in `read_dir` order. -/
inductive FsEntries where
  | nil
  | cons (e : FsEntry) (es : FsEntries)
end

mutual
/-- The per-child step of `scan_dir` from src/lib.rs: a child directory is
pushed (descended into) only if `!is_ignored(path)`, and contributes nothing
when `read_dir` fails; a child file is recorded iff its joined path matches a
configured extension. `base` is the path of the enclosing directory; the
child's path is `base ++ "/" ++ name` (`dir.join(name)`). -/
def scan_entry (exts : List RStr) (base : RStr) : FsEntry → List (RStr × Nat)
  | .file name mtime =>
      if matches_extension (base ++ '/' :: name) exts then
        [(base ++ '/' :: name, mtime)]
      else []
  | .dir name readable entries =>
      if is_ignored name then []
      else if readable then scan_entries exts (base ++ '/' :: name) entries
      else []

/-- `scan_entry` over each child of a readable, non-ignored directory. -/
def scan_entries (exts : List RStr) (base : RStr) : FsEntries → List (RStr × Nat)
  | .nil => []
  | .cons e es => scan_entry exts base e ++ scan_entries exts base es
end

/-- `scan_dir(root, extensions, state)` from src/lib.rs, as the list of
`(path, mtime)` records inserted into `state`. The root directory itself is
pushed unconditionally (its own name is never ignore-checked); if reading it
fails the scan records nothing. -/
def scan_dir (exts : List RStr) (root : RStr) : FsEntry → List (RStr × Nat)
  | .file _ _ => []
  | .dir _ readable entries =>
      if readable then scan_entries exts root entries
      else []

/-- One step of the Debouncer's background loop (src/lib.rs,
`Debouncer::new`): `debounce_loop d now pending msgs` runs the loop to
completion. `msgs` is the time-stamped sequence of paths submitted on the
intake channel before `shutdown()` closed it; `now` is the arrival time of
the last received message. With an empty pending set the loop blocks in
`recv()` (accepting the next message whenever it arrives, or exiting without
a flush on disconnect); with a non-empty pending set it waits in
`recv_timeout(d)`: a message arriving strictly before `now + d` is inserted
and the countdown restarts from its arrival time, otherwise the timeout
fires first, the pending set is flushed, and the message is then taken by the
blocking `recv`. On disconnect with a non-empty pending set the loop flushes
once and exits. The returned list is the sequence of flushed sets. -/
def debounce_loop (d : Nat) : Nat → Finset RStr → List (Nat × RStr) → List (Finset RStr)
  | _, pending, [] => if pending = ∅ then [] else [pending]
  | now, pending, (t, p) :: rest =>
      if pending = ∅ then debounce_loop d t {p} rest
      else if t < now + d then debounce_loop d t (insert p pending) rest
      else pending :: debounce_loop d t {p} rest

/-- Operations performed on the output sink. -/
inductive WOp where
  | write (s : RStr)
  | flushSink
deriving DecidableEq

/-- `Debouncer::flush` from src/lib.rs: nothing when the pending set is
empty; otherwise `writeln!(writer, "changed: {}", p)` for each drained member
(one write of the line including the trailing newline), then one
`writer.flush()`. The drain order of the `HashSet` is unspecified; `pending`
is the drained sequence. -/
def debouncer_flush (pending : List RStr) : List WOp :=
  if pending = [] then []
  else (pending.map fun p => WOp.write ("changed: ".data ++ p ++ ['\n'])) ++ [WOp.flushSink]

/-- The diff step of one `run_poller` tick (src/lib.rs): for each entry of
the fresh snapshot `current`, the path is submitted unless the previous
snapshot `state` holds it with an equal mtime; then every key of `state`
absent from `current` is submitted. Snapshots are association lists
path ↦ mtime (the `HashMap`s, whose keys are distinct). -/
def poll_diff_submits (state current : List (RStr × Nat)) : List RStr :=
  ((current.filter fun pm =>
      match List.lookup pm.1 state with
      | some prev => prev != pm.2
      | none => true).map Prod.fst)
    ++ (state.map Prod.fst).filter fun p => (List.lookup p current).isNone

/-- `notify::event::ModifyKind`. -/
inductive ModKind where
  | any | data | metadata | name | other
deriving DecidableEq

/-- `notify::EventKind`. -/
inductive EvKind where
  | access | create | modify (mk : ModKind) | remove | any | other
deriving DecidableEq

/-- `matches!(kind, EventKind::Modify(ModifyKind::Metadata(_)))`. -/
def is_metadata_modify : EvKind → Bool
  | .modify .metadata => true
  | _ => false

/-- `matches!(kind, EventKind::Access(_))`. -/
def is_access : EvKind → Bool
  | .access => true
  | _ => false

/-- A raw `notify` event: a kind and the affected paths, each path given as
its list of normal components. -/
structure RawEvent where
  kind : EvKind
  paths : List (List RStr)
deriving DecidableEq

/-- `path.to_string_lossy()` for a path of normal components. -/
def path_string (components : List RStr) : RStr :=
  (components.intersperse "/".data).flatten

/-- The per-event body of `run_watcher`'s loop (src/lib.rs): for each path of
the event, skip it if `is_ignored_path`, skip it if the event kind is a
metadata-only modification, skip it if the kind is an access notification,
and otherwise submit `path.to_string_lossy()` to the Debouncer iff it matches
a configured extension. Returns the submitted strings in order. -/
def run_watcher_event_submits (exts : List RStr) (ev : RawEvent) : List RStr :=
  ev.paths.filterMap fun p =>
    if is_ignored_path p then none
    else if is_metadata_modify ev.kind then none
    else if is_access ev.kind then none
    else if matches_extension (path_string p) exts then some (path_string p)
    else none

/-- `std::time::Duration`, modelled as its total number of nanoseconds. -/
abbrev Duration : Type := Nat

/-- `Duration::from_millis`. -/
def duration_from_millis (ms : Nat) : Duration := ms * 1000000

/-- `Duration::from_secs_f64` on the non-negative value `n / 10 ^ e` seconds,
rounded to the nearest nanosecond (`(2 * a + b) / (2 * b)` is
`a / b` rounded half-up; the value is exact whenever `e ≤ 9`, so rounding
only arises beyond the nanosecond digit). -/
def duration_from_secs (n e : Nat) : Duration :=
  (2 * (n * 1000000000) + 10 ^ e) / (2 * 10 ^ e)

/-- Value of a digit string. -/
def digits_to_nat (ds : List Char) : Nat :=
  ds.foldl (fun acc c => acc * 10 + (c.toNat - '0'.toNat)) 0

/-- Rust `u64::from_str`: an optional leading `'+'` followed by one or more
ASCII digits; fails on anything else and on values exceeding `u64::MAX`. -/
def parse_u64 (s : RStr) : Option Nat :=
  let body := match s with | '+' :: rest => rest | _ => s
  if body.isEmpty || !body.all Char.isDigit then none
  else if digits_to_nat body < 2 ^ 64 then some (digits_to_nat body) else none

/-- The unsigned part of Rust `f64::from_str`, modelled on the plain decimal
forms `digits`, `digits.digits`, `digits.` and `.digits` (exponents and the
`inf`/`nan` spellings are not modelled, nor is binary floating-point
rounding). The value `(n, e)` denotes `n / 10 ^ e`. -/
def parse_dec_unsigned (body : RStr) : Option (Nat × Nat) :=
  let intDigits := body.takeWhile Char.isDigit
  match body.drop intDigits.length with
  | [] => if intDigits.isEmpty then none else some (digits_to_nat intDigits, 0)
  | '.' :: fracDigits =>
      if !fracDigits.all Char.isDigit then none
      else if intDigits.isEmpty && fracDigits.isEmpty then none
      else some (digits_to_nat (intDigits ++ fracDigits), fracDigits.length)
  | _ => none

/-- Rust `f64::from_str` on decimal forms: an optional sign followed by an
unsigned decimal. The value `(i, e)` denotes `i / 10 ^ e` with the sign
carried by `i`. -/
def parse_dec (s : RStr) : Option (Int × Nat) :=
  match s with
  | '-' :: rest => (parse_dec_unsigned rest).map fun ne => (-(ne.1 : Int), ne.2)
  | '+' :: rest => (parse_dec_unsigned rest).map fun ne => ((ne.1 : Int), ne.2)
  | _ => (parse_dec_unsigned s).map fun ne => ((ne.1 : Int), ne.2)

/-- `str::strip_suffix`. -/
def strip_suffix (suffix s : RStr) : Option RStr :=
  if suffix.isSuffixOf s then some (s.take (s.length - suffix.length)) else none

/-- Outcome of `parse_duration_str`: `Ok(duration)`, `Err(message)` — the
Rust error message interpolates the underlying int/float parse error, which
is not modelled beyond the offending string — or a panic.
`Duration::from_secs_f64` panics when its argument is negative, not finite,
or at least 2^64 seconds; within the modelled decimal grammar that is
exactly a parsed value that is negative or at least 2^64. -/
inductive DurResult where
  | ok (d : Duration)
  | err (msg : RStr)
  | panicked
deriving DecidableEq

/-- `parse_duration_str(s)` from src/lib.rs: a `"ms"` suffix means
milliseconds via `u64` parsing, otherwise an `"s"` suffix means seconds via
`f64` parsing fed to `Duration::from_secs_f64`, otherwise a bare `u64` means
milliseconds. -/
def parse_duration_str (s : RStr) : DurResult :=
  match strip_suffix "ms".data s with
  | some ms =>
      match parse_u64 ms with
      | some n => .ok (duration_from_millis n)
      | none => .err ("invalid duration: ".data ++ s)
  | none =>
      match strip_suffix "s".data s with
      | some secs =>
          match parse_dec secs with
          | some (i, e) =>
              if i < 0 ∨ (2 ^ 64 * 10 ^ e : Int) ≤ i then .panicked
              else .ok (duration_from_secs i.toNat e)
          | none => .err ("invalid duration: ".data ++ s)
      | none =>
          match parse_u64 s with
          | some n => .ok (duration_from_millis n)
          | none => .err ("invalid duration: ".data ++ s)

/-- `str::trim` (leading and trailing whitespace removed). -/
def trim (s : RStr) : RStr :=
  ((s.dropWhile Char.isWhitespace).reverse.dropWhile Char.isWhitespace).reverse

/-- `parse_extensions(raw)` from src/lib.rs: split on `','`, trim each piece,
drop empty pieces, and prepend `'.'` to any piece not already starting with
it. -/
def parse_extensions (raw : RStr) : List RStr :=
  (((raw.splitOn ',').map trim).filter fun s => !s.isEmpty).map fun s =>
    if s.head? == some '.' then s else '.' :: s

/-- The `Config` struct from src/lib.rs. Durations are in nanoseconds. -/
structure Config where
  extensions : List RStr
  poll : Bool
  poll_interval : Duration
  debounce : Duration
  paths : List RStr
deriving DecidableEq

/-- Outcome of `parse_args_from`. -/
inductive ArgResult where
  | ok (c : Config)
  | err (msg : RStr)
  | panicked
deriving DecidableEq

/-- The path-validation loop at the end of `parse_args_from`: for each path
in order, `fs::metadata` is consulted (modelled by the oracle `meta`, which
returns the directory flag or the OS error text) and a non-directory or a
metadata error aborts with the corresponding message. -/
def check_paths (meta : RStr → Except RStr Bool) : List RStr → Except RStr Unit
  | [] => .ok ()
  | p :: rest =>
      match meta p with
      | .error e => .error (p ++ ": ".data ++ e)
      | .ok true => check_paths meta rest
      | .ok false => .error (p ++ " is not a directory".data)

/-- The argument-scanning loop of `parse_args_from` (src/lib.rs), carried out
on the remaining argument list with the accumulated state as parameters;
when the arguments are exhausted the final checks and `Config` construction
run. -/
def parse_args_go (meta : RStr → Except RStr Bool) (ext_raw : RStr) (poll : Bool)
    (poll_interval debounce : Duration) (paths : List RStr) : List RStr → ArgResult
  | [] =>
      if paths.isEmpty then .err "at least one path argument is required".data
      else
        match check_paths meta paths with
        | .error e => .err e
        | .ok _ => .ok ⟨parse_extensions ext_raw, poll, poll_interval, debounce, paths⟩
  | a :: rest =>
      if a = "--ext".data then
        match rest with
        | [] => .err "--ext requires a value".data
        | v :: rest2 => parse_args_go meta v poll poll_interval debounce paths rest2
      else if a = "--poll".data then
        parse_args_go meta ext_raw true poll_interval debounce paths rest
      else if a = "--poll-interval".data then
        match rest with
        | [] => .err "--poll-interval requires a value".data
        | v :: rest2 =>
            match parse_duration_str v with
            | .ok d => parse_args_go meta ext_raw poll d debounce paths rest2
            | .err e => .err e
            | .panicked => .panicked
      else if a = "--debounce".data then
        match rest with
        | [] => .err "--debounce requires a value".data
        | v :: rest2 =>
            match parse_duration_str v with
            | .ok d => parse_args_go meta ext_raw poll poll_interval d paths rest2
            | .err e => .err e
            | .panicked => .panicked
      else if "--".data.isPrefixOf a then .err ("unknown flag: ".data ++ a)
      else parse_args_go meta ext_raw poll poll_interval debounce (paths ++ [a]) rest

/-- `parse_args_from(args)` from src/lib.rs, with its defaults: extension
list `"php"`, event-driven mode (`poll = false`), poll interval 500 ms,
debounce 300 ms, no paths. -/
def parse_args_from (meta : RStr → Except RStr Bool) (args : List RStr) : ArgResult :=
  parse_args_go meta "php".data false (duration_from_millis 500)
    (duration_from_millis 300) [] args

/-- The union of everything a run of the Debouncer loop ever flushed. -/
def flushed_union (flushes : List (Finset RStr)) : Finset RStr :=
  flushes.foldr (fun s t => s ∪ t) ∅

/-! ## Helper lemmas -/

theorem lookup_eq_some_iff {l : List (RStr × Nat)} (hnd : (l.map Prod.fst).Nodup)
    {p : RStr} {m : Nat} : List.lookup p l = some m ↔ (p, m) ∈ l := by
  induction l with
  | nil => simp [List.lookup]
  | cons kv tl ih =>
      obtain ⟨k, v⟩ := kv
      simp only [List.map_cons, List.nodup_cons, List.mem_map] at hnd
      obtain ⟨hk, htl⟩ := hnd
      by_cases hpk : p = k
      · subst hpk
        simp only [List.lookup, beq_self_eq_true, List.mem_cons, Prod.mk.injEq, true_and]
        constructor
        · intro h
          exact Or.inl (Option.some.inj h).symm
        · rintro (rfl | h)
          · rfl
          · exact absurd ⟨(p, m), h, rfl⟩ hk
      · have hbeq : (p == k) = false := beq_eq_false_iff_ne.mpr hpk
        simp only [List.lookup, hbeq, List.mem_cons, Prod.mk.injEq]
        rw [ih htl]
        constructor
        · exact Or.inr
        · rintro (⟨h1, _⟩ | h)
          · exact absurd h1 hpk
          · exact h

theorem lookup_eq_none_iff {l : List (RStr × Nat)} {p : RStr} :
    List.lookup p l = none ↔ p ∉ l.map Prod.fst := by
  induction l with
  | nil => simp [List.lookup]
  | cons kv tl ih =>
      obtain ⟨k, v⟩ := kv
      by_cases hpk : p = k
      · subst hpk
        simp [List.lookup]
      · have hbeq : (p == k) = false := beq_eq_false_iff_ne.mpr hpk
        simp only [List.lookup, hbeq, List.map_cons, List.mem_cons]
        rw [ih]
        constructor
        · intro h hmem
          rcases hmem with h1 | h1
          · exact hpk h1
          · exact h h1
        · intro h h1
          exact h (Or.inr h1)

theorem singleton_union_eq_insert (p : RStr) (s : Finset RStr) : {p} ∪ s = insert p s := by
  ext x
  simp

theorem debounce_loop_burst (d : Nat) :
    ∀ (msgs : List (Nat × RStr)) (lastMsg : Nat × RStr) (pending : Finset RStr),
      pending ≠ ∅ →
      List.Chain (fun a b => b.1 < a.1 + d) lastMsg msgs →
      debounce_loop d lastMsg.1 pending msgs = [pending ∪ (msgs.map Prod.snd).toFinset] := by
  intro msgs
  induction msgs with
  | nil =>
      intro lastMsg pending hne _
      simp [debounce_loop, hne]
  | cons hd tl ih =>
      intro lastMsg pending hne hchain
      obtain ⟨t, p⟩ := hd
      cases hchain with
      | cons hrel hchain2 =>
          simp only [debounce_loop, if_neg hne, if_pos hrel]
          rw [ih (t, p) (insert p pending) (Finset.insert_ne_empty _ _) hchain2]
          simp [Finset.insert_union, Finset.union_insert]

theorem debounce_loop_union (d : Nat) :
    ∀ (msgs : List (Nat × RStr)) (now : Nat) (pending : Finset RStr),
      flushed_union (debounce_loop d now pending msgs) =
        pending ∪ (msgs.map Prod.snd).toFinset := by
  intro msgs
  induction msgs with
  | nil =>
      intro now pending
      by_cases hne : pending = ∅ <;>
        simp [debounce_loop, hne, flushed_union]
  | cons hd tl ih =>
      intro now pending
      obtain ⟨t, p⟩ := hd
      by_cases hne : pending = ∅
      · subst hne
        have hstep : debounce_loop d now ∅ ((t, p) :: tl) = debounce_loop d t {p} tl := by
          simp [debounce_loop]
        rw [hstep, ih t {p}, singleton_union_eq_insert]
        simp
      · by_cases hlt : t < now + d
        · have hstep : debounce_loop d now pending ((t, p) :: tl) =
              debounce_loop d t (insert p pending) tl := by
            simp [debounce_loop, hne, hlt]
          rw [hstep, ih t (insert p pending), Finset.insert_union]
          simp [Finset.union_insert]
        · have hstep : debounce_loop d now pending ((t, p) :: tl) =
              pending :: debounce_loop d t {p} tl := by
            simp [debounce_loop, hne, hlt]
          rw [hstep]
          have hu : flushed_union (pending :: debounce_loop d t {p} tl) =
              pending ∪ flushed_union (debounce_loop d t {p} tl) := rfl
          rw [hu, ih t {p}, singleton_union_eq_insert]
          simp [Finset.union_insert]

mutual
theorem scan_entry_mem_matches (exts : List RStr) (base : RStr) (e : FsEntry) (p : RStr)
    (m : Nat) (h : (p, m) ∈ scan_entry exts base e) : matches_extension p exts = true := by
  cases e with
  | file name mtime =>
      simp only [scan_entry] at h
      split at h
      · next hm =>
          simp only [List.mem_singleton, Prod.mk.injEq] at h
          obtain ⟨rfl, rfl⟩ := h
          exact hm
      · simp at h
  | dir name readable entries =>
      simp only [scan_entry] at h
      split at h
      · simp at h
      · split at h
        · exact scan_entries_mem_matches exts (base ++ '/' :: name) entries p m h
        · simp at h

theorem scan_entries_mem_matches (exts : List RStr) (base : RStr) (es : FsEntries) (p : RStr)
    (m : Nat) (h : (p, m) ∈ scan_entries exts base es) : matches_extension p exts = true := by
  cases es with
  | nil => simp [scan_entries] at h
  | cons e es2 =>
      simp only [scan_entries, List.mem_append] at h
      rcases h with h | h
      · exact scan_entry_mem_matches exts base e p m h
      · exact scan_entries_mem_matches exts base es2 p m h
end

/-! ## Claim theorems -/

/-- C1: for every non-empty burst of time-stamped submissions in which each
arrival occurs strictly within the debounce duration `d` of the previous one
(a sliding window: each arrival restarts the countdown from its own time),
the background loop performs exactly one flush, it happens only after the
burst ends, and it contains exactly the distinct submitted paths — when the
paths are pairwise distinct, the flushed set has one element per
submission. -/
theorem debouncer_burst_single_flush (d : Nat) (msgs : List (Nat × RStr))
    (hne : msgs ≠ [])
    (hburst : msgs.Chain' fun a b => b.1 < a.1 + d) :
    debounce_loop d 0 ∅ msgs = [(msgs.map Prod.snd).toFinset] ∧
    ((msgs.map Prod.snd).Nodup → (msgs.map Prod.snd).toFinset.card = msgs.length) := by
  constructor
  · match msgs, hne with
    | (t, p) :: rest, _ =>
        have hstep : debounce_loop d 0 ∅ ((t, p) :: rest) = debounce_loop d t {p} rest := by
          simp [debounce_loop]
        have hchain : List.Chain (fun a b : Nat × RStr => b.1 < a.1 + d) (t, p) rest := hburst
        rw [hstep,
          debounce_loop_burst d rest (t, p) {p} (Finset.singleton_ne_empty p) hchain,
          singleton_union_eq_insert]
        simp
  · intro hnd
    rw [List.toFinset_card_of_nodup hnd, List.length_map]

/-- Concrete instance of C1: a burst of three distinct paths at times 0, 5, 9
with debounce 10 yields exactly one flush holding all three paths. -/
theorem debouncer_burst_single_flush_witness :
    debounce_loop 10 0 ∅ [(0, "a".data), (5, "b".data), (9, "c".data)] =
      [(([(0, "a".data), (5, "b".data), (9, "c".data)] : List (Nat × RStr)).map
          Prod.snd).toFinset] ∧
    ((([(0, "a".data), (5, "b".data), (9, "c".data)] : List (Nat × RStr)).map
        Prod.snd).Nodup →
      (([(0, "a".data), (5, "b".data), (9, "c".data)] : List (Nat × RStr)).map
          Prod.snd).toFinset.card =
        ([(0, "a".data), (5, "b".data), (9, "c".data)] : List (Nat × RStr)).length) :=
  debouncer_burst_single_flush 10 [(0, "a".data), (5, "b".data), (9, "c".data)]
    (by decide)
    (show List.Chain _ (0, "a".data) [(5, "b".data), (9, "c".data)] from
      .cons (by decide) (.cons (by decide) .nil))

/-- C2: once the intake channel is closed, the completed run of the
background loop has flushed every path that was ever submitted (the union of
all flushes is exactly the set of submitted paths, so nothing submitted
before `shutdown()` is lost); a close with a non-empty pending set produces
the final flush of exactly that set, and a close with nothing pending
produces no output. All output happens within the run, i.e. before the
thread exit that `shutdown()` joins on. -/
theorem debouncer_shutdown_flushes_all (d : Nat) :
    (∀ msgs : List (Nat × RStr),
      flushed_union (debounce_loop d 0 ∅ msgs) = (msgs.map Prod.snd).toFinset) ∧
    (∀ (now : Nat) (pending : Finset RStr), pending ≠ ∅ →
      debounce_loop d now pending [] = [pending]) ∧
    (∀ now : Nat, debounce_loop d now ∅ [] = []) := by
  refine ⟨fun msgs => ?_, fun now pending hne => ?_, fun now => ?_⟩
  · rw [debounce_loop_union d msgs 0 ∅, Finset.empty_union]
  · simp [debounce_loop, hne]
  · simp [debounce_loop]

/-- Concrete instance of C2: the single path submitted before shutdown is
flushed, and a close with pending set `{"b"}` flushes exactly it. -/
theorem debouncer_shutdown_flushes_all_witness :
    flushed_union (debounce_loop 10 0 ∅ [(0, "a".data)]) =
      (([(0, "a".data)] : List (Nat × RStr)).map Prod.snd).toFinset ∧
    debounce_loop 10 3 {"b".data} [] = [{"b".data}] :=
  ⟨(debouncer_shutdown_flushes_all 10).1 [(0, "a".data)],
    (debouncer_shutdown_flushes_all 10).2.1 3 {"b".data}
      (Finset.singleton_ne_empty _)⟩

/-- C3, counterexample: the claim asserts that a file whose own name starts
with `'.'` never appears as a snapshot key, for every tree and extension
list. It is false: `scan_dir` applies the ignore test only to directories,
so the dot-named file `.env.php` inside a plain root is recorded. -/
theorem scan_dir_records_dotfile_counterexample :
    ("root/.env.php".data, 1) ∈
      scan_dir [".php".data] "root".data
        (.dir "root".data true (.cons (.file ".env.php".data 1) .nil)) ∧
    is_ignored ".env.php".data = true := by
  decide

/-- C3, amended: every entry of a snapshot built by `scan_dir` matches a
configured extension, and an ignored directory is pruned without descending
(it contributes no entries at all); however a file's own name is not checked
against the ignore rules. -/
theorem scan_dir_entries_match_and_prune :
    (∀ (exts : List RStr) (base : RStr) (e : FsEntry) (p : RStr) (m : Nat),
      (p, m) ∈ scan_entry exts base e → matches_extension p exts = true) ∧
    (∀ (exts : List RStr) (base name : RStr) (r : Bool) (es : FsEntries),
      is_ignored name = true → scan_entry exts base (.dir name r es) = []) ∧
    (∀ (exts : List RStr) (root : RStr) (e : FsEntry) (p : RStr) (m : Nat),
      (p, m) ∈ scan_dir exts root e → matches_extension p exts = true) := by
  refine ⟨fun exts base e p m h => scan_entry_mem_matches exts base e p m h,
    fun exts base name r es hign => ?_, fun exts root e p m h => ?_⟩
  · simp [scan_entry, hign]
  · cases e with
    | file name mtime => simp [scan_dir] at h
    | dir name readable entries =>
        simp only [scan_dir] at h
        split at h
        · exact scan_entries_mem_matches exts root entries p m h
        · simp at h

/-- Concrete instance of C3 (amended): the recorded entry `root/a.php` of a
one-file tree matches the configured extension, and a `vendor` directory is
pruned. -/
theorem scan_dir_entries_match_and_prune_witness :
    matches_extension "root/a.php".data [".php".data] = true ∧
    scan_entry [".php".data] "root".data
      (.dir "vendor".data true (.cons (.file "lib.php".data 4) .nil)) = [] :=
  ⟨scan_dir_entries_match_and_prune.2.2 [".php".data] "root".data
      (.dir "root".data true (.cons (.file "a.php".data 3) .nil)) "root/a.php".data 3
      (by decide),
    scan_dir_entries_match_and_prune.2.1 [".php".data] "root".data "vendor".data true
      (.cons (.file "lib.php".data 4) .nil) (by decide)⟩

theorem lookup_ne_none_iff {l : List (RStr × Nat)} {p : RStr} :
    List.lookup p l ≠ none ↔ p ∈ l.map Prod.fst := by
  rw [ne_eq, lookup_eq_none_iff, not_not]

theorem mem_diff_new_part {state current : List (RStr × Nat)}
    (hc : (current.map Prod.fst).Nodup) (p : RStr) :
    (p ∈ (current.filter fun pm =>
        match List.lookup pm.1 state with
        | some prev => prev != pm.2
        | none => true).map Prod.fst) ↔
      ∃ b : Nat, List.lookup p current = some b ∧
        (match List.lookup p state with
         | some prev => prev != b
         | none => true) = true := by
  constructor
  · intro h
    rw [List.mem_map] at h
    obtain ⟨pm, hmemf, rfl⟩ := h
    rw [List.mem_filter] at hmemf
    obtain ⟨hmem, hf⟩ := hmemf
    exact ⟨pm.2, (lookup_eq_some_iff hc).mpr hmem, hf⟩
  · rintro ⟨b, hb, hf⟩
    rw [List.mem_map]
    refine ⟨(p, b), ?_, rfl⟩
    rw [List.mem_filter]
    exact ⟨(lookup_eq_some_iff hc).mp hb, hf⟩

/-- C4: on every poll tick, for snapshots with distinct keys the diff
submits exactly the created paths (in `current` but not `state`), the
modified paths (in both with different mtimes) and the deleted paths (in
`state` but not `current`); a path present in both with an equal mtime is
never submitted, and no path is submitted more than once per tick. -/
theorem run_poller_diff_exact (state current : List (RStr × Nat))
    (hs : (state.map Prod.fst).Nodup) (hc : (current.map Prod.fst).Nodup) :
    (∀ p : RStr, p ∈ poll_diff_submits state current ↔
      ((List.lookup p state = none ∧ List.lookup p current ≠ none) ∨
       (∃ a b : Nat, List.lookup p state = some a ∧ List.lookup p current = some b ∧
         a ≠ b) ∨
       (List.lookup p state ≠ none ∧ List.lookup p current = none))) ∧
    (poll_diff_submits state current).Nodup := by
  constructor
  · intro p
    simp only [poll_diff_submits, List.mem_append, mem_diff_new_part hc p,
      List.mem_filter, Option.isNone_iff_eq_none]
    rcases hst : List.lookup p state with _ | a <;>
      rcases hcur : List.lookup p current with _ | b
    · have hnk : p ∉ state.map Prod.fst := lookup_eq_none_iff.mp hst
      simp [hnk]
    · simp
    · have hk : p ∈ state.map Prod.fst := lookup_ne_none_iff.mp (by rw [hst]; simp)
      simp [hk]
    · simp [bne_iff_ne]
  · apply List.Nodup.append
    · have hsub : List.Sublist ((current.filter fun pm =>
          match List.lookup pm.1 state with
          | some prev => prev != pm.2
          | none => true).map Prod.fst) (current.map Prod.fst) :=
        (List.filter_sublist current).map Prod.fst
      exact hc.sublist hsub
    · exact hs.filter _
    · intro p hp1 hp2
      rw [mem_diff_new_part hc p] at hp1
      obtain ⟨b, hb, _⟩ := hp1
      rw [List.mem_filter, Option.isNone_iff_eq_none] at hp2
      obtain ⟨_, hnone⟩ := hp2
      rw [hnone] at hb
      cases hb

/-- Concrete instance of C4: with old snapshot a↦1, b↦2, c↦3 and new
snapshot a↦1, b↦5, d↦4, the diff characterization and per-tick
deduplication hold (so b is modified, d created, c deleted, and a — equal
mtime — is never submitted). -/
theorem run_poller_diff_exact_witness :
    (∀ p : RStr, p ∈ poll_diff_submits [("a".data, 1), ("b".data, 2), ("c".data, 3)]
        [("a".data, 1), ("b".data, 5), ("d".data, 4)] ↔
      ((List.lookup p [("a".data, 1), ("b".data, 2), ("c".data, 3)] = none ∧
        List.lookup p [("a".data, 1), ("b".data, 5), ("d".data, 4)] ≠ none) ∨
       (∃ a b : Nat, List.lookup p [("a".data, 1), ("b".data, 2), ("c".data, 3)] = some a ∧
         List.lookup p [("a".data, 1), ("b".data, 5), ("d".data, 4)] = some b ∧ a ≠ b) ∨
       (List.lookup p [("a".data, 1), ("b".data, 2), ("c".data, 3)] ≠ none ∧
        List.lookup p [("a".data, 1), ("b".data, 5), ("d".data, 4)] = none))) ∧
    (poll_diff_submits [("a".data, 1), ("b".data, 2), ("c".data, 3)]
      [("a".data, 1), ("b".data, 5), ("d".data, 4)]).Nodup :=
  run_poller_diff_exact [("a".data, 1), ("b".data, 2), ("c".data, 3)]
    [("a".data, 1), ("b".data, 5), ("d".data, 4)] (by decide) (by decide)

/-- C5: `matches_extension` is true iff the path ends with at least one
configured extension string, as a plain string-suffix test; in particular
with extensions `[".blade.php"]` it accepts `x/y/home.blade.php` and rejects
`x/y/User.php`, while with `[".php"]` it accepts both. -/
theorem matches_extension_plain_suffix :
    (∀ (path : RStr) (exts : List RStr), matches_extension path exts = true ↔
      ∃ ext ∈ exts, ∃ pre : RStr, pre ++ ext = path) ∧
    matches_extension "x/y/home.blade.php".data [".blade.php".data] = true ∧
    matches_extension "x/y/User.php".data [".blade.php".data] = false ∧
    matches_extension "x/y/home.blade.php".data [".php".data] = true ∧
    matches_extension "x/y/User.php".data [".php".data] = true := by
  refine ⟨fun path exts => ?_, by decide, by decide, by decide, by decide⟩
  rw [matches_extension, List.any_eq_true]
  constructor
  · rintro ⟨ext, hmem, hsuf⟩
    exact ⟨ext, hmem, List.isSuffixOf_iff_suffix.mp hsuf⟩
  · rintro ⟨ext, hmem, pre, hpre⟩
    exact ⟨ext, hmem, List.isSuffixOf_iff_suffix.mpr ⟨pre, hpre⟩⟩

/-- C6: `is_ignored_path` is true iff some normal component of the path —
the file's own name or any segment between root and file — starts with `'.'`
or equals `vendor` or `node_modules`; it is false for every path none of
whose components does. -/
theorem is_ignored_path_iff_segment (components : List RStr) :
    is_ignored_path components = true ↔
      ∃ s ∈ components,
        s.head? = some '.' ∨ s = "vendor".data ∨ s = "node_modules".data := by
  rw [is_ignored_path, List.any_eq_true]
  constructor
  · rintro ⟨s, hmem, hcond⟩
    rw [Bool.or_eq_true, Bool.or_eq_true] at hcond
    refine ⟨s, hmem, ?_⟩
    rcases hcond with (h | h) | h
    · exact Or.inl (by simpa using h)
    · exact Or.inr (Or.inl (by simpa using h))
    · exact Or.inr (Or.inr (by simpa using h))
  · rintro ⟨s, hmem, hcond⟩
    refine ⟨s, hmem, ?_⟩
    rw [Bool.or_eq_true, Bool.or_eq_true]
    rcases hcond with h | h | h
    · exact Or.inl (Or.inl (by simpa using h))
    · exact Or.inl (Or.inr (by simpa using h))
    · exact Or.inr (by simpa using h)

/-- C7: a received raw event whose kind is a metadata-only modification or
an access notification contributes no submissions at all; for any other
kind, exactly the non-ignored paths of the event whose string form matches a
configured extension are submitted. -/
theorem run_watcher_event_filtering (exts : List RStr) (ev : RawEvent) :
    run_watcher_event_submits exts ev =
      if is_metadata_modify ev.kind || is_access ev.kind then []
      else
        (ev.paths.filter fun p =>
          !is_ignored_path p && matches_extension (path_string p) exts).map
          path_string := by
  obtain ⟨kind, paths⟩ := ev
  simp only [run_watcher_event_submits]
  by_cases hskip : (is_metadata_modify kind || is_access kind) = true
  · rw [if_pos hskip]
    rw [List.filterMap_eq_nil_iff]
    intro p _
    rw [Bool.or_eq_true] at hskip
    rcases hskip with h | h
    · simp [h]
    · simp [h]
  · rw [if_neg hskip]
    have hmm : is_metadata_modify kind = false := by
      cases h : is_metadata_modify kind
      · rfl
      · exact absurd (by rw [Bool.or_eq_true]; exact Or.inl h) hskip
    have hac : is_access kind = false := by
      cases h : is_access kind
      · rfl
      · exact absurd (by rw [Bool.or_eq_true]; exact Or.inr h) hskip
    simp only [hmm, hac, Bool.false_eq_true, if_false]
    induction paths with
    | nil => rfl
    | cons p ps ih =>
        rw [List.filterMap_cons, List.filter_cons]
        by_cases hig : is_ignored_path p = true
        · simp [hig, ih]
        · have hig2 : is_ignored_path p = false := Bool.eq_false_iff.mpr hig
          by_cases hmt : matches_extension (path_string p) exts = true
          · simp [hig2, hmt, ih]
          · have hmt2 : matches_extension (path_string p) exts = false :=
              Bool.eq_false_iff.mpr hmt
            simp [hig2, hmt2, ih]

/-- C8: flushing a non-empty pending set writes exactly one line per member,
each line being exactly the string made of `changed: `, the path and a
newline, and the batch of lines is followed by an explicit flush of the
output sink; flushing an empty pending set produces no output at all. -/
theorem debouncer_flush_format (p : RStr) (rest : List RStr) :
    debouncer_flush (p :: rest) =
      ((p :: rest).map fun q => WOp.write ("changed: ".data ++ q ++ ['\n'])) ++
        [WOp.flushSink] ∧
    debouncer_flush [] = [] := by
  constructor
  · rw [debouncer_flush, if_neg (List.cons_ne_nil p rest)]
  · rfl

/-- C9: the claim that every malformed duration — including `-1s` — is
surfaced as a descriptive error value is contradicted by the code: the
seconds branch feeds the parsed `f64` straight into
`Duration::from_secs_f64`, which panics on a negative value, so
`parse_duration_str("-1s")` panics instead of returning an `Err`. The other
clauses of the claim do hold: a bare integer and an `ms` suffix give
milliseconds, and an `s` suffix gives fractional seconds. -/
theorem parse_duration_str_negative_secs_panics :
    parse_duration_str "-1s".data = DurResult.panicked ∧
    parse_duration_str "300".data = DurResult.ok (duration_from_millis 300) ∧
    parse_duration_str "250ms".data = DurResult.ok (duration_from_millis 250) ∧
    parse_duration_str "0.5s".data = DurResult.ok 500000000 ∧
    parse_duration_str "abc".data = DurResult.err ("invalid duration: ".data ++ "abc".data) := by
  refine ⟨by decide, by decide, by decide, by decide, by decide⟩

theorem check_paths_ok (meta : RStr → Except RStr Bool) :
    ∀ paths : List RStr, (∀ a ∈ paths, meta a = Except.ok true) →
      check_paths meta paths = Except.ok () := by
  intro paths
  induction paths with
  | nil => intro _; rfl
  | cons p rest ih =>
      intro h
      have hp := h p (List.mem_cons_self p rest)
      simp only [check_paths, hp]
      exact ih fun a ha => h a (List.mem_cons_of_mem p ha)

theorem parse_args_go_no_flags (meta : RStr → Except RStr Bool) :
    ∀ (args paths : List RStr),
      (∀ a ∈ args, "--".data.isPrefixOf a = false) →
      paths ++ args ≠ [] →
      (∀ a ∈ paths ++ args, meta a = Except.ok true) →
      parse_args_go meta "php".data false (duration_from_millis 500)
          (duration_from_millis 300) paths args =
        ArgResult.ok ⟨parse_extensions "php".data, false, duration_from_millis 500,
          duration_from_millis 300, paths ++ args⟩ := by
  intro args
  induction args with
  | nil =>
      intro paths _ hne hdirs
      rw [List.append_nil] at hne hdirs
      have hpe : paths.isEmpty = false := by
        cases paths
        · exact absurd rfl hne
        · rfl
      simp only [parse_args_go, hpe, Bool.false_eq_true, if_false,
        check_paths_ok meta paths hdirs, List.append_nil]
  | cons a rest ih =>
      intro paths hplain hne hdirs
      have ha : "--".data.isPrefixOf a = false := hplain a (List.mem_cons_self a rest)
      have h1 : a ≠ "--ext".data := fun h => by rw [h] at ha; exact absurd ha (by decide)
      have h2 : a ≠ "--poll".data := fun h => by rw [h] at ha; exact absurd ha (by decide)
      have h3 : a ≠ "--poll-interval".data := fun h => by
        rw [h] at ha; exact absurd ha (by decide)
      have h4 : a ≠ "--debounce".data := fun h => by rw [h] at ha; exact absurd ha (by decide)
      rw [show parse_args_go meta "php".data false (duration_from_millis 500)
            (duration_from_millis 300) paths (a :: rest) =
          parse_args_go meta "php".data false (duration_from_millis 500)
            (duration_from_millis 300) (paths ++ [a]) rest from by
        rw [parse_args_go.eq_def]
        simp only []
        rw [if_neg h1, if_neg h2, if_neg h3, if_neg h4, ha]
        simp]
      rw [ih (paths ++ [a]) (fun x hx => hplain x (List.mem_cons_of_mem a hx))
        (by simp) (by intro x hx; apply hdirs; simpa using hx)]
      simp

/-- C10: with flags omitted, argument parsing applies the defaults —
extensions `[".php"]` (from the raw default `"php"`), event-driven mode
(`poll = false`), poll interval 500 ms, debounce 300 ms; every argument not
starting with `--` becomes a root path, in order; and an unrecognized
argument starting with `--` is rejected with an `unknown flag` error. -/
theorem parse_args_defaults_and_unknown_flag :
    (∀ (meta : RStr → Except RStr Bool) (args : List RStr),
      (∀ a ∈ args, "--".data.isPrefixOf a = false) → args ≠ [] →
      (∀ a ∈ args, meta a = Except.ok true) →
      parse_args_from meta args =
        ArgResult.ok ⟨[".php".data], false, duration_from_millis 500,
          duration_from_millis 300, args⟩) ∧
    parse_extensions "php".data = [".php".data] ∧
    (∀ (meta : RStr → Except RStr Bool) (a : RStr) (rest : List RStr),
      "--".data.isPrefixOf a = true →
      a ≠ "--ext".data → a ≠ "--poll".data → a ≠ "--poll-interval".data →
      a ≠ "--debounce".data →
      parse_args_from meta (a :: rest) =
        ArgResult.err ("unknown flag: ".data ++ a)) := by
  refine ⟨fun meta args hplain hne hdirs => ?_, by decide,
    fun meta a rest ha h1 h2 h3 h4 => ?_⟩
  · rw [parse_args_from, parse_args_go_no_flags meta args [] hplain (by simpa using hne)
      (by simpa using hdirs)]
    rw [show parse_extensions "php".data = [".php".data] from by decide]
    rw [List.nil_append]
  · rw [parse_args_from, parse_args_go.eq_def]
    simp only []
    rw [if_neg h1, if_neg h2, if_neg h3, if_neg h4, ha]
    simp

/-- Concrete instance of C10: a single plain path argument yields the
default configuration, and an unknown flag is rejected. -/
theorem parse_args_defaults_witness :
    parse_args_from (fun _ => Except.ok true) ["proj".data] =
      ArgResult.ok ⟨[".php".data], false, duration_from_millis 500,
        duration_from_millis 300, ["proj".data]⟩ ∧
    parse_args_from (fun _ => Except.ok true) ["--bogus".data, "proj".data] =
      ArgResult.err ("unknown flag: ".data ++ "--bogus".data) :=
  ⟨parse_args_defaults_and_unknown_flag.1 (fun _ => Except.ok true) ["proj".data]
      (by decide) (by decide) (fun a _ => rfl),
    parse_args_defaults_and_unknown_flag.2.2 (fun _ => Except.ok true) "--bogus".data
      ["proj".data] (by decide) (by decide) (by decide) (by decide) (by decide)⟩
